import Mathlib

/-!
# Verification of the `django-minify-compress-staticfiles` pipeline

A shallow embedding of the repository's settings accessor (`conf.py`), utility
functions (`utils.py`) and storage pipeline (`storage.py`), together with
theorems settling the specification claims.

Python strings are modelled as `List Char`; Python byte strings as `List Nat`
(each entry a byte value).  POSIX paths are modelled by the component structure
used by `pathlib.PurePosixPath` (single-dot components removed, empty components
collapsed; the rare `//` double root is collapsed into `/`, which no claim
distinguishes).
-/

set_option maxHeartbeats 1000000
set_option maxRecDepth 10000

namespace Minicompress

/-- A Python `str`, modelled as its list of characters. -/
abbrev Str := List Char

/-- `startsWithL l s`: `s` is a leading segment of `l`
(Python `l.startswith(s)`). -/
def startsWithL : Str → Str → Bool
  | _, [] => true
  | [], _ :: _ => false
  | a :: as, b :: bs => a == b && startsWithL as bs

/-- `endsWithL l s`: `s` is a trailing segment of `l` (Python `l.endswith(s)`). -/
def endsWithL (l s : Str) : Bool := startsWithL l.reverse s.reverse

/-- `containsSub hay needle`: `needle` occurs contiguously in `hay`
(Python `needle in hay`). -/
def containsSub : Str → Str → Bool
  | [], needle => needle.isEmpty
  | h :: t, needle => startsWithL (h :: t) needle || containsSub t needle

theorem startsWithL_iff (l s : Str) : startsWithL l s = true ↔ ∃ t, l = s ++ t := by
  induction s generalizing l with
  | nil => simp [startsWithL]
  | cons b bs ih =>
    cases l with
    | nil => simp [startsWithL]
    | cons a as =>
      simp only [startsWithL, Bool.and_eq_true, beq_iff_eq, ih]
      constructor
      · rintro ⟨rfl, t, rfl⟩; exact ⟨t, rfl⟩
      · rintro ⟨t, h⟩
        cases h
        exact ⟨rfl, t, rfl⟩

theorem endsWithL_iff (l s : Str) : endsWithL l s = true ↔ ∃ t, l = t ++ s := by
  rw [endsWithL, startsWithL_iff]
  constructor
  · rintro ⟨t, h⟩
    refine ⟨t.reverse, ?_⟩
    have := congrArg List.reverse h
    simpa using this
  · rintro ⟨t, rfl⟩
    exact ⟨t.reverse, by simp⟩

theorem containsSub_iff (l s : Str) : containsSub l s = true ↔ ∃ p t, l = p ++ s ++ t := by
  induction l with
  | nil =>
    simp only [containsSub, List.isEmpty_iff]
    constructor
    · rintro rfl; exact ⟨[], [], rfl⟩
    · rintro ⟨p, t, h⟩
      rcases List.append_eq_nil.mp (List.append_eq_nil.mp h.symm).1 with ⟨_, hs⟩
      exact hs
  | cons a as ih =>
    simp only [containsSub, Bool.or_eq_true, startsWithL_iff, ih]
    constructor
    · rintro (⟨t, h⟩ | ⟨p, t, h⟩)
      · exact ⟨[], t, by simpa using h⟩
      · exact ⟨a :: p, t, by simp [h]⟩
    · rintro ⟨p, t, h⟩
      cases p with
      | nil => exact Or.inl ⟨t, by simpa using h⟩
      | cons x xs =>
        simp only [List.cons_append, List.cons.injEq] at h
        exact Or.inr ⟨xs, t, h.2⟩

/-- A suffix match also yields every shorter suffix match. -/
theorem endsWithL_of_endsWithL_append (l p s : Str)
    (h : endsWithL l (p ++ s) = true) : endsWithL l s = true := by
  rw [endsWithL_iff] at h ⊢
  rcases h with ⟨t, rfl⟩
  exact ⟨t ++ p, by simp⟩

/-- A suffix occurrence is in particular a substring occurrence. -/
theorem containsSub_of_endsWithL (l s : Str) (h : endsWithL l s = true) :
    containsSub l s = true := by
  rw [endsWithL_iff] at h
  rw [containsSub_iff]
  rcases h with ⟨t, rfl⟩
  exact ⟨t, [], by simp⟩

/-- If `l` ends with `s ++ t` then `s` occurs in `l` as a substring. -/
theorem containsSub_of_endsWithL_append (l s t : Str)
    (h : endsWithL l (s ++ t) = true) : containsSub l s = true := by
  rw [endsWithL_iff] at h
  rw [containsSub_iff]
  rcases h with ⟨p, rfl⟩
  exact ⟨p, t, by simp⟩

/-! ## POSIX path model (`pathlib.PurePosixPath` as used by the sources) -/

/-- Split a string at every `/`, keeping empty pieces (Python-style split). -/
def splitSlash : Str → List Str
  | [] => [[]]
  | c :: t =>
    match splitSlash t with
    | [] => [[c]]
    | h :: r => if c = '/' then [] :: h :: r else (c :: h) :: r

/-- The parsed components of a path: empty pieces and single-dot pieces are
dropped, exactly as `PurePosixPath` does. -/
def pathParts (s : Str) : List Str :=
  (splitSlash s).filter (fun c => !(c.isEmpty || c == ['.']))

/-- Whether the textual path is absolute (starts with `/`). -/
def isAbsL : Str → Bool
  | [] => false
  | c :: _ => c == '/'

/-- A parsed POSIX path: an absolute flag plus the retained components.
(`PurePosixPath`'s rare `//` double root is collapsed into `/`.) -/
structure PPath where
  abs : Bool
  parts : List Str
  deriving DecidableEq, Repr

/-- Parse a textual path (the `Path(...)` constructor). -/
def parsePath (s : Str) : PPath := ⟨isAbsL s, pathParts s⟩

/-- Render a parsed path back to text (`str(path)`). -/
def PPath.render (p : PPath) : Str :=
  match p.abs, p.parts with
  | true, ps => '/' :: (ps.intersperse ['/']).flatten
  | false, [] => ['.']
  | false, ps => (ps.intersperse ['/']).flatten

/-- `path.name`: the final component, or empty. -/
def PPath.name (p : PPath) : Str := (p.parts.getLast?).getD []

/-- `path.parent`: drop the final component. -/
def PPath.parent (p : PPath) : PPath := ⟨p.abs, p.parts.dropLast⟩

/-- `parent / child` (`PurePath.__truediv__`): the right-hand string is parsed;
an absolute right-hand side replaces the left entirely. -/
def PPath.child (p : PPath) (s : Str) : PPath :=
  if isAbsL s then ⟨true, pathParts s⟩ else ⟨p.abs, p.parts ++ pathParts s⟩

/-- Split a reversed name at its first `.`: returns
(chars before the dot in the reversed list, chars after it). -/
def splitAtDotRev : Str → Option (Str × Str)
  | [] => none
  | c :: t =>
    if c = '.' then some ([], t)
    else (splitAtDotRev t).map (fun ab => (c :: ab.1, ab.2))

/-- `(path.stem, path.suffix)` of a name: the extension starts at the last dot
provided that dot is neither the first nor the last character of the name. -/
def splitExt (name : Str) : Str × Str :=
  match splitAtDotRev name.reverse with
  | none => (name, [])
  | some (extRev, restRev) =>
    if extRev.isEmpty || restRev.isEmpty then (name, [])
    else (restRev.reverse, '.' :: extRev.reverse)

/-- Lowercase hexadecimal digit test (`[a-f0-9]`). -/
def isHexLower (c : Char) : Bool :=
  ('a' ≤ c && c ≤ 'f') || ('0' ≤ c && c ≤ '9')

/-- Strip a trailing `.<12 lowercase hex chars>` segment from a stem, if
present (the `re.sub(r"\.[a-f0-9]{12}$", "", stem)` of the sources). -/
def stripHash (stem : Str) : Str :=
  let r := stem.reverse
  match r.drop 12 with
  | '.' :: _ => if (r.take 12).all isHexLower then (r.drop 13).reverse else stem
  | _ => stem

/-! ## Settings model (`conf.py`) -/

/-- The Python values that occur as settings in this code base. -/
inductive PyVal where
  | none : PyVal
  | bool : Bool → PyVal
  | int : Int → PyVal
  | strList : List Str → PyVal
  | extDict : List (Str × Bool) → PyVal
  deriving DecidableEq, Repr

/-- Python truthiness of a settings value. -/
def truthy : PyVal → Bool
  | .none => false
  | .bool b => b
  | .int n => n != 0
  | .strList l => !l.isEmpty
  | .extDict l => !l.isEmpty

/-- Python `int(...)`-compatible reading of a settings value where the code
does arithmetic on it.  (A bool is an int in Python; the remaining cases would
raise `TypeError` in Python and are outside the modelled domain.) -/
def pyToInt : PyVal → Int
  | .int n => n
  | .bool b => if b then 1 else 0
  | _ => 0

/-- `DEFAULT_SETTINGS` of `conf.py`, key for key. -/
def DEFAULT_SETTINGS : List (String × PyVal) :=
  [("ENABLED", .bool true),
   ("MINIFY_FILES", .bool true),
   ("BROTLI_COMPRESSION", .bool true),
   ("GZIP_COMPRESSION", .bool true),
   ("MIN_FILE_SIZE", .int 200),
   ("COMPRESSION_LEVEL_GZIP", .int 9),
   ("COMPRESSION_LEVEL_BROTLI", .int 11),
   ("PRESERVE_COMMENTS", .bool true),
   ("SUPPORTED_EXTENSIONS", .extDict
      [("css".data, true), ("js".data, true), ("txt".data, true),
       ("xml".data, true), ("json".data, true), ("svg".data, true),
       ("md".data, true), ("rst".data, true), ("html".data, true),
       ("htm".data, true)]),
   ("EXCLUDE_PATTERNS", .strList ["*.min.*".data, "*-min.*".data])]

/-- Dictionary lookup in `DEFAULT_SETTINGS`. -/
def defaultsLookup (k : String) : Option PyVal := DEFAULT_SETTINGS.lookup k

/-- `DEFAULT_SETTINGS[k]`: a missing key raises `KeyError`. -/
def defaultsItem (k : String) : Except String PyVal :=
  match defaultsLookup k with
  | some v => .ok v
  | Option.none => .error ("KeyError: " ++ k)

/-- The host configuration: the value bound to `MINICOMPRESS_<name>`, when one
is set. -/
abbrev HostSettings := String → Option PyVal

/-- `conf.get_setting(name, default)`: `getattr` with a default. -/
def get_setting (host : HostSettings) (name : String) (dflt : PyVal) : PyVal :=
  (host name).getD dflt

/-- The host configuration with no `MINICOMPRESS_*` settings at all
(every lookup falls back to the defaults). -/
def emptyHost : HostSettings := fun _ => Option.none

/-! ## `utils.py`: pure helpers -/

/-- `utils.normalize_extension`: lower-case, then strip leading dots. -/
def normalize_extension (extension : Str) : Str :=
  (extension.map Char.toLower).dropWhile (· == '.')

/-- One iteration of the exclude-pattern loop of `utils.should_process_file`
(lines 72‑81): `true` means this pattern excludes the file. -/
def patternExcludes (pat filename : Str) : Bool :=
  if pat = "*.min.*".data && containsSub filename ".min.".data then true
  else if pat = "*-min.*".data && containsSub filename "-min.".data then true
  else if startsWithL pat ['*'] && endsWithL filename (pat.drop 1) then true
  else if endsWithL filename pat then true
  else false

/-- `utils.should_process_file(file_path, supported_extensions, exclude_patterns)`.
The supported extensions are modelled as the list the call site passes (for a
dict, its keys); a `None` pattern list is passed as `[]` by the call sites'
`or []`. -/
def should_process_file (file_path : Str) (supported_extensions : List Str)
    (exclude_patterns : List Str) : Bool :=
  let path := parsePath file_path
  let ext := normalize_extension (splitExt path.name).2
  if supported_extensions.isEmpty || !supported_extensions.contains ext then false
  else
    let filename := path.name
    !(exclude_patterns.any (fun pat => patternExcludes pat filename))

/-- `utils.create_hashed_filename(original_path, hash_value)`. -/
def create_hashed_filename (original_path hash_value : Str) : Str :=
  let path := parsePath original_path
  let parent := path.parent
  let se := splitExt path.name
  let stem := stripHash se.1
  let new_filename := stem ++ '.' :: hash_value ++ se.2
  if parent.render = ['.'] then new_filename
  else (parent.child new_filename).render

/-! ## MD5 (`hashlib.md5`), on bytes modelled as `List Nat` -/

/-- Truncate to a 32-bit word. -/
def w32 (n : Nat) : Nat := n % 4294967296

/-- 32-bit addition. -/
def add32 (a b : Nat) : Nat := w32 (a + b)

/-- 32-bit complement (inputs are kept below `2^32`). -/
def not32 (a : Nat) : Nat := Nat.xor a 4294967295

/-- 32-bit left rotation. -/
def rotl32 (a s : Nat) : Nat := Nat.lor (w32 (a <<< s)) (a >>> (32 - s))

/-- The 64 MD5 sine-table constants. -/
def mdK : List Nat :=
  [0xd76aa478, 0xe8c7b756, 0x242070db, 0xc1bdceee,
   0xf57c0faf, 0x4787c62a, 0xa8304613, 0xfd469501,
   0x698098d8, 0x8b44f7af, 0xffff5bb1, 0x895cd7be,
   0x6b901122, 0xfd987193, 0xa679438e, 0x49b40821,
   0xf61e2562, 0xc040b340, 0x265e5a51, 0xe9b6c7aa,
   0xd62f105d, 0x02441453, 0xd8a1e681, 0xe7d3fbc8,
   0x21e1cde6, 0xc33707d6, 0xf4d50d87, 0x455a14ed,
   0xa9e3e905, 0xfcefa3f8, 0x676f02d9, 0x8d2a4c8a,
   0xfffa3942, 0x8771f681, 0x6d9d6122, 0xfde5380c,
   0xa4beea44, 0x4bdecfa9, 0xf6bb4b60, 0xbebfbc70,
   0x289b7ec6, 0xeaa127fa, 0xd4ef3085, 0x04881d05,
   0xd9d4d039, 0xe6db99e5, 0x1fa27cf8, 0xc4ac5665,
   0xf4292244, 0x432aff97, 0xab9423a7, 0xfc93a039,
   0x655b59c3, 0x8f0ccc92, 0xffeff47d, 0x85845dd1,
   0x6fa87e4f, 0xfe2ce6e0, 0xa3014314, 0x4e0811a1,
   0xf7537e82, 0xbd3af235, 0x2ad7d2bb, 0xeb86d391]

/-- The 64 MD5 per-round shift amounts. -/
def mdS : List Nat :=
  [7, 12, 17, 22, 7, 12, 17, 22, 7, 12, 17, 22, 7, 12, 17, 22,
   5, 9, 14, 20, 5, 9, 14, 20, 5, 9, 14, 20, 5, 9, 14, 20,
   4, 11, 16, 23, 4, 11, 16, 23, 4, 11, 16, 23, 4, 11, 16, 23,
   6, 10, 15, 21, 6, 10, 15, 21, 6, 10, 15, 21, 6, 10, 15, 21]

/-- The round-dependent MD5 mixing function. -/
def mdF (i b c d : Nat) : Nat :=
  if i < 16 then Nat.lor (Nat.land b c) (Nat.land (not32 b) d)
  else if i < 32 then Nat.lor (Nat.land d b) (Nat.land (not32 d) c)
  else if i < 48 then Nat.xor (Nat.xor b c) d
  else Nat.xor c (Nat.lor b (not32 d))

/-- The round-dependent message-word index. -/
def mdG (i : Nat) : Nat :=
  if i < 16 then i
  else if i < 32 then (5 * i + 1) % 16
  else if i < 48 then (3 * i + 5) % 16
  else (7 * i) % 16

/-- Little-endian 32-bit word from (up to) the first four bytes of a list. -/
def leWord (l : List Nat) : Nat :=
  ((l.take 4).reverse).foldl (fun acc x => acc * 256 + x % 256) 0

/-- The eight little-endian bytes of a 64-bit length value. -/
def le64 (n : Nat) : List Nat :=
  (List.range 8).map (fun i => n / 2 ^ (8 * i) % 256)

/-- The four little-endian bytes of a 32-bit word. -/
def wordBytes (w : Nat) : List Nat :=
  [w % 256, w / 256 % 256, w / 65536 % 256, w / 16777216 % 256]

/-- MD5 padding: `0x80`, zeros to 56 mod 64, then the bit length in 64 bits. -/
def padMsg (m : List Nat) : List Nat :=
  let L := m.length
  let k := (56 + 64 - (L + 1) % 64) % 64
  m ++ 128 :: List.replicate k 0 ++ le64 ((8 * L) % 2 ^ 64)

/-- Cut a byte list into 64-byte chunks (structural recursion on a fuel bound
so that the definition reduces inside the kernel). -/
def chunks64Aux : Nat → List Nat → List (List Nat)
  | 0, _ => []
  | _ + 1, [] => []
  | fuel + 1, a :: t => ((a :: t).take 64) :: chunks64Aux fuel ((a :: t).drop 64)

/-- Cut a byte list into 64-byte chunks. -/
def chunks64 (l : List Nat) : List (List Nat) := chunks64Aux l.length l

/-- One MD5 step of the 64-step inner loop over a chunk. -/
def mdStep (chunk : List Nat) (st : Nat × Nat × Nat × Nat) (i : Nat) :
    Nat × Nat × Nat × Nat :=
  match st with
  | (a, b, c, d) =>
    let f := mdF i b c d
    let g := mdG i
    let m := leWord (chunk.drop (4 * g))
    let tmp := add32 (add32 (add32 f a) (mdK.getD i 0)) m
    (d, add32 b (rotl32 tmp (mdS.getD i 0)), b, c)

/-- Process one 64-byte chunk, updating the running state. -/
def mdChunk (st : Nat × Nat × Nat × Nat) (chunk : List Nat) :
    Nat × Nat × Nat × Nat :=
  match st with
  | (a0, b0, c0, d0) =>
    match (List.range 64).foldl (mdStep chunk) (a0, b0, c0, d0) with
    | (a, b, c, d) => (add32 a0 a, add32 b0 b, add32 c0 c, add32 d0 d)

/-- The 16-byte MD5 digest of a byte string. -/
def md5digest (msg : List Nat) : List Nat :=
  match (chunks64 (padMsg msg)).foldl mdChunk
      (0x67452301, 0xefcdab89, 0x98badcfe, 0x10325476) with
  | (a, b, c, d) => wordBytes a ++ wordBytes b ++ wordBytes c ++ wordBytes d

/-- The sixteen lowercase hex digit characters. -/
def hexDigits : Str := "0123456789abcdef".data

/-- The hex character for a value (taken mod 16). -/
def hexChar (n : Nat) : Char := hexDigits.getD (n % 16) '0'

/-- The two hex characters of a byte. -/
def byteHex (b : Nat) : Str := [hexChar (b % 256 / 16), hexChar b]

/-- Lowercase hex spelling of a byte string (Python `.hexdigest()`). -/
def toHexStr (bytes : List Nat) : Str := (bytes.map byteHex).flatten

/-- `hashlib.md5(b).hexdigest()`. -/
def md5hex (msg : List Nat) : Str := toHexStr (md5digest msg)

/-- `utils.generate_file_hash` on raw bytes: the MD5 hex digest truncated to
`length` characters (the source's default for `length` is 12, which every
call site here passes explicitly). -/
def generate_file_hash (content : List Nat) (length : Nat) : Str :=
  (md5hex content).take length

/-! ## UTF-8 (`str.encode("utf-8")` / `bytes.decode("utf-8")`) -/

/-- The UTF-8 bytes of one character. -/
def encodeChar (c : Char) : List Nat :=
  let n := c.toNat
  if n < 0x80 then [n]
  else if n < 0x800 then [0xC0 + n / 64, 0x80 + n % 64]
  else if n < 0x10000 then [0xE0 + n / 4096, 0x80 + n / 64 % 64, 0x80 + n % 64]
  else [0xF0 + n / 262144, 0x80 + n / 4096 % 64, 0x80 + n / 64 % 64, 0x80 + n % 64]

/-- `str.encode("utf-8")`. -/
def utf8Encode (s : Str) : List Nat := (s.map encodeChar).flatten

/-- UTF-8 continuation byte test. -/
def contByte (b : Nat) : Bool := decide (0x80 ≤ b ∧ b < 0xC0)

/-- Strict UTF-8 decoding with a fuel bound (the fuel is the byte count, so it
never runs out); rejects overlong forms, surrogates and out-of-range points,
as Python's strict `bytes.decode("utf-8")` does. -/
def utf8DecodeAux : Nat → List Nat → Option Str
  | 0, [] => some []
  | 0, _ :: _ => Option.none
  | _ + 1, [] => some []
  | fuel + 1, b :: rest =>
    if b < 0x80 then (utf8DecodeAux fuel rest).map (Char.ofNat b :: ·)
    else if 0xC2 ≤ b ∧ b ≤ 0xDF then
      match rest with
      | b2 :: rest2 =>
        if contByte b2 then
          (utf8DecodeAux fuel rest2).map
            (Char.ofNat ((b - 0xC0) * 64 + (b2 - 0x80)) :: ·)
        else Option.none
      | [] => Option.none
    else if 0xE0 ≤ b ∧ b ≤ 0xEF then
      match rest with
      | b2 :: b3 :: rest3 =>
        let cp := (b - 0xE0) * 4096 + (b2 - 0x80) * 64 + (b3 - 0x80)
        if contByte b2 ∧ contByte b3 ∧ 0x800 ≤ cp ∧ ¬(0xD800 ≤ cp ∧ cp ≤ 0xDFFF) then
          (utf8DecodeAux fuel rest3).map (Char.ofNat cp :: ·)
        else Option.none
      | _ => Option.none
    else if 0xF0 ≤ b ∧ b ≤ 0xF4 then
      match rest with
      | b2 :: b3 :: b4 :: rest4 =>
        let cp := (b - 0xF0) * 262144 + (b2 - 0x80) * 4096 + (b3 - 0x80) * 64
          + (b4 - 0x80)
        if contByte b2 ∧ contByte b3 ∧ contByte b4 ∧ 0x10000 ≤ cp ∧ cp ≤ 0x10FFFF then
          (utf8DecodeAux fuel rest4).map (Char.ofNat cp :: ·)
        else Option.none
      | _ => Option.none
    else Option.none

/-- `bytes.decode("utf-8")`: `none` models `UnicodeDecodeError`. -/
def utf8Decode (bytes : List Nat) : Option Str := utf8DecodeAux bytes.length bytes

/-! ## The storage boundary

The host framework's storage abstraction (existence check, open-for-read,
save) together with the local filesystem fallback, as the `storage.py` mixins
consume it. -/

/-- The state the pipeline reads through: the storage backend's files, the
local filesystem's files, and the backend's path resolution. -/
structure Storage where
  /-- `self.exists(p)` / `self.open(p).read()`: backend content per path. -/
  storageFiles : Str → Option (List Nat)
  /-- `os.path.exists(p)` / `open(p,"rb").read()`: local filesystem content. -/
  fsFiles : Str → Option (List Nat)
  /-- `self.path(name)`: backend path resolution (`FileSystemStorage.path`). -/
  resolvePath : Str → Str

/-- `utils.get_file_size`: size of the file on the local filesystem, or `0` on
any I/O error (missing file). -/
def get_file_size (st : Storage) (file_path : Str) : Nat :=
  ((st.fsFiles file_path).map List.length).getD 0

/-- Modelled from the spec: `is_safe_path` is imported by `storage.py` from
`utils.py` but its definition is absent from the sources.  Per the spec, an
unsafe path is one "attempting to escape the asset root, e.g. via
parent-directory traversal"; the model flags any path with a `..` component. -/
def is_safe_path (p : Str) : Bool := !(pathParts p).contains ['.', '.']

/-- `CompressionMixin._read_file_content`, returning the outcome (an uncaught
`KeyError` becomes `.error`; a skipped file becomes `.ok none`) together with
the list of paths actually opened for reading. -/
def readFileContent (st : Storage) (host : HostSettings) (path : Str) :
    Except String (Option (List Nat)) × List Str :=
  if !is_safe_path path then (.ok Option.none, [])
  else
    match defaultsItem "MAX_FILE_SIZE" with
    | .error e => (.error e, [])
    | .ok dflt =>
      let maxSize :=
        let v := get_setting host "MAX_FILE_SIZE" dflt
        if truthy v then pyToInt v else 10485760
      match st.storageFiles path with
      | some content =>
          if (content.length : Int) > maxSize then (.ok Option.none, [path])
          else (.ok (some content), [path])
      | Option.none =>
        match st.fsFiles path with
        | some content =>
            if (content.length : Int) > maxSize then (.ok Option.none, [])
            else (.ok (some content), [path])
        | Option.none => (.ok Option.none, [])

/-- A write performed through `self.save(path, ContentFile(content))`. -/
structure WriteEvent where
  path : Str
  content : List Nat
  deriving DecidableEq, Repr

/-- `CompressionMixin._write_file_content`: the writes it performs (none when
the path is unsafe; it never raises). -/
def writeFileContent (path : Str) (content : List Nat) : List WriteEvent :=
  if !is_safe_path path then []
  else [⟨path, content⟩]

/-! ## `utils.FileManager` (the eligibility cache) -/

/-- `FileManager.supported_extensions`: host setting or default, with a falsy
result replaced by `{}`. -/
def fmSupportedExtensions (host : HostSettings) : PyVal :=
  let d := (defaultsLookup "SUPPORTED_EXTENSIONS").getD .none
  let r := get_setting host "SUPPORTED_EXTENSIONS" d
  if truthy r then r else .extDict []

/-- `FileManager.exclude_patterns`: host setting or default, with a falsy
result replaced by `[]`. -/
def fmExcludePatterns (host : HostSettings) : PyVal :=
  let d := (defaultsLookup "EXCLUDE_PATTERNS").getD .none
  let r := get_setting host "EXCLUDE_PATTERNS" d
  if truthy r then r else .strList []

/-- `FileManager.min_file_size`: host setting or default, with a falsy result
replaced by `200`. -/
def fmMinFileSize (host : HostSettings) : Int :=
  let d := (defaultsLookup "MIN_FILE_SIZE").getD .none
  let r := get_setting host "MIN_FILE_SIZE" d
  if truthy r then pyToInt r else 200

/-- The extension collection handed to `should_process_file` by
`FileManager.should_process`: a dict contributes its keys, a plain collection
is used as-is.  (Scalar settings values would raise in Python and are outside
the modelled domain.) -/
def extListOf : PyVal → List Str
  | .extDict l => l.map Prod.fst
  | .strList l => l
  | _ => []

/-- The pattern list handed to `should_process_file`. -/
def patternsOf : PyVal → List Str
  | .strList l => l
  | _ => []

/-- `FileManager.should_process(path)`. -/
def fmShouldProcess (host : HostSettings) (file_path : Str) : Bool :=
  should_process_file file_path (extListOf (fmSupportedExtensions host))
    (patternsOf (fmExcludePatterns host))

/-- `FileManager.is_compression_candidate(path)`: resolve through the storage
backend (`MinicompressStorage` has a `path` capability), then compare the size
against the minimum. -/
def is_compression_candidate (st : Storage) (host : HostSettings)
    (file_path : Str) : Bool :=
  decide ((get_file_size st (st.resolvePath file_path) : Int) ≥ fmMinFileSize host)

/-! ## `storage.FileProcessorMixin` -/

/-- `FileProcessorMixin._get_file_type`. -/
def getFileType (path : Str) : Str :=
  normalize_extension (splitExt (parsePath path).name).2

/-- `FileProcessorMixin.should_process_minification`. -/
def should_process_minification (host : HostSettings) (path : Str) : Bool :=
  if !truthy (get_setting host "MINIFY_FILES"
      ((defaultsLookup "MINIFY_FILES").getD .none)) then false
  else if !fmShouldProcess host path then false
  else decide (getFileType path = "css".data ∨ getFileType path = "js".data)

/-- `FileProcessorMixin.should_process_compression`. -/
def should_process_compression (st : Storage) (host : HostSettings)
    (path : Str) : Bool :=
  fmShouldProcess host path && is_compression_candidate st host path

/-- The external minifier boundary (`rcssmin.cssmin` / `rjsmin.jsmin`): text
and a keep-bang-comments flag in, minified text out, or an exception. -/
structure Minifiers where
  cssmin : Str → Bool → Except String Str
  jsmin : Str → Bool → Except String Str

/-- The resolved `PRESERVE_COMMENTS` flag (an explicit `None` is replaced by
`True`, then Python truthiness is applied). -/
def preserveComments (host : HostSettings) : Bool :=
  let d := (defaultsLookup "PRESERVE_COMMENTS").getD .none
  let v := get_setting host "PRESERVE_COMMENTS" d
  let v2 := if v = PyVal.none then PyVal.bool true else v
  truthy v2

/-- `FileProcessorMixin.minify_file_content`: dispatch on the file type; any
minifier failure is caught and the original content returned. -/
def minify_file_content (M : Minifiers) (host : HostSettings) (content : Str)
    (file_type : Str) : Str :=
  if file_type = "css".data then
    match M.cssmin content (preserveComments host) with
    | .ok r => r
    | .error _ => content
  else if file_type = "js".data then
    match M.jsmin content (preserveComments host) with
    | .ok r => r
    | .error _ => content
  else content

/-! ## `storage.MinificationMixin` -/

/-- The minified path of lines 122‑131 of `storage.py`:
`dir/stem.min.<hash>.ext`. -/
def buildMinifiedPath (path : Str) (fileHash : Str) : Str :=
  let p := parsePath path
  let se := splitExt p.name
  let minified_filename := se.1 ++ ".min.".data ++ fileHash ++ se.2
  if p.parent.render = ['.'] then minified_filename
  else (p.parent.child minified_filename).render

/-- The per-path body of the `process_minification` loop (lines 97‑141 of
`storage.py`), over the read capability `reader` the storage composition
provides as `self._read_file_content`.  `none` is any skipped file (gate
failed, read failed or skipped, undecodable bytes, minification did not
shrink, or a caught per-file exception); `some (minifiedPath, writes)` is an
accepted file: it is recorded in the result map, and `writes` are the saves
performed for it. -/
def minifyStep (reader : Str → Except String (Option (List Nat)))
    (M : Minifiers) (host : HostSettings) (path : Str) :
    Option (Str × List WriteEvent) :=
  if !should_process_minification host path then Option.none
  else
    match reader path with
    | .error _ => Option.none
    | .ok Option.none => Option.none
    | .ok (some bytes) =>
      match utf8Decode bytes with
      | Option.none => Option.none
      | some content =>
        let file_type := getFileType path
        let minified := minify_file_content M host content file_type
        if minified.length < content.length then
          let fileHash :=
            generate_file_hash (utf8Encode path ++ utf8Encode minified) 12
          let minifiedPath := buildMinifiedPath path fileHash
          some (minifiedPath, writeFileContent minifiedPath (utf8Encode minified))
        else Option.none

/-- The `process_minification` loop with its per-run cap: `count` is the
number of accepted files so far. -/
def minifyLoop (reader : Str → Except String (Option (List Nat)))
    (M : Minifiers) (host : HostSettings) (maxFiles : Int) :
    List Str → Nat → List (Str × Str) × List WriteEvent
  | [], _ => ([], [])
  | path :: rest, count =>
    if (count : Int) ≥ maxFiles then ([], [])
    else
      match minifyStep reader M host path with
      | some (mp, ws) =>
        let r := minifyLoop reader M host maxFiles rest (count + 1)
        ((path, mp) :: r.1, ws ++ r.2)
      | Option.none => minifyLoop reader M host maxFiles rest count

/-- `MinificationMixin.process_minification(paths)`: the original→minified
result map and the writes performed, or the uncaught exception. -/
def processMinification (st : Storage) (M : Minifiers) (host : HostSettings)
    (paths : List Str) : Except String (List (Str × Str) × List WriteEvent) := do
  let dMin ← defaultsItem "MINIFY_FILES"
  if !truthy (get_setting host "MINIFY_FILES" dMin) then return ([], [])
  let dMax ← defaultsItem "MAX_FILES_PER_RUN"
  let maxFiles :=
    let v := get_setting host "MAX_FILES_PER_RUN" dMax
    if truthy v then pyToInt v else 1000
  return minifyLoop (fun p => (readFileContent st host p).1) M host maxFiles
    paths 0

/-! ## `storage.CompressionMixin` -/

/-- The external compressor boundary (gzip container writer and
`brotli.compress`): a level/quality and bytes in, compressed bytes out. -/
structure Codecs where
  gzipEncode : Int → List Nat → List Nat
  brotliEncode : Int → List Nat → List Nat

/-- The gzip level of `CompressionMixin.gzip_compress` (lines 249‑256): the
resolved setting, `6` when that is falsy, clamped to `[0, 9]`. -/
def gzipLevelResolved (host : HostSettings) : Int :=
  let d := (defaultsLookup "COMPRESSION_LEVEL_GZIP").getD .none
  let v := get_setting host "COMPRESSION_LEVEL_GZIP" d
  let vv := if truthy v then v else .int 6
  max 0 (min 9 (pyToInt vv))

/-- The Brotli quality of `CompressionMixin.brotli_compress` (lines 263‑272):
the resolved setting, `4` when that is falsy, clamped to `[0, 11]`. -/
def brotliLevelResolved (host : HostSettings) : Int :=
  let d := (defaultsLookup "COMPRESSION_LEVEL_BROTLI").getD .none
  let v := get_setting host "COMPRESSION_LEVEL_BROTLI" d
  let vv := if truthy v then v else .int 4
  max 0 (min 11 (pyToInt vv))

/-- `CompressionMixin.gzip_compress`. -/
def gzip_compress (C : Codecs) (host : HostSettings) (content : List Nat) :
    List Nat :=
  C.gzipEncode (gzipLevelResolved host) content

/-- `CompressionMixin.brotli_compress`. -/
def brotli_compress (C : Codecs) (host : HostSettings) (content : List Nat) :
    List Nat :=
  C.brotliEncode (brotliLevelResolved host) content

/-- The storage-relative output path of lines 174‑184 of `storage.py`: strip
the root of an absolute path, falling back to the basename. -/
def relativePathOf (path : Str) : Str :=
  if isAbsL path then
    match (parsePath path).parts with
    | [] => (parsePath path).name
    | ps => (ps.intersperse ['/']).flatten
  else path

/-- The per-path body of the `process_compression` loop (lines 166‑206),
over the read capability.  `none` is a skipped file; `some (siblings, writes)`
is a processed one, recording the compressed sibling paths (gzip before
Brotli) and the saves performed. -/
def compressStep (reader : Str → Except String (Option (List Nat)))
    (C : Codecs) (st : Storage) (host : HostSettings) (path : Str) :
    Option (List Str × List WriteEvent) :=
  if !should_process_compression st host path then Option.none
  else
    match reader path with
    | .error _ => Option.none
    | .ok Option.none => Option.none
    | .ok (some content) =>
      let rel := relativePathOf path
      let gzOn := truthy (get_setting host "GZIP_COMPRESSION"
        ((defaultsLookup "GZIP_COMPRESSION").getD .none))
      let brOn := truthy (get_setting host "BROTLI_COMPRESSION"
        ((defaultsLookup "BROTLI_COMPRESSION").getD .none))
      let gzPath := rel ++ ".gz".data
      let brPath := rel ++ ".br".data
      let gzPart : List Str × List WriteEvent :=
        if gzOn then ([gzPath], writeFileContent gzPath (gzip_compress C host content))
        else ([], [])
      let brPart : List Str × List WriteEvent :=
        if brOn then ([brPath], writeFileContent brPath (brotli_compress C host content))
        else ([], [])
      some (gzPart.1 ++ brPart.1, gzPart.2 ++ brPart.2)

/-- The `process_compression` loop with its per-run cap. -/
def compressLoop (reader : Str → Except String (Option (List Nat)))
    (C : Codecs) (st : Storage) (host : HostSettings) (maxFiles : Int) :
    List Str → Nat → List (Str × List Str) × List WriteEvent
  | [], _ => ([], [])
  | path :: rest, count =>
    if (count : Int) ≥ maxFiles then ([], [])
    else
      match compressStep reader C st host path with
      | some (sibs, ws) =>
        let r := compressLoop reader C st host maxFiles rest (count + 1)
        ((path, sibs) :: r.1, ws ++ r.2)
      | Option.none => compressLoop reader C st host maxFiles rest count

/-- `CompressionMixin.process_compression(paths)`: the path → compressed
siblings map and the writes performed, or the uncaught exception. -/
def processCompression (st : Storage) (C : Codecs) (host : HostSettings)
    (paths : List Str) :
    Except String (List (Str × List Str) × List WriteEvent) := do
  let dGz ← defaultsItem "GZIP_COMPRESSION"
  let dBr ← defaultsItem "BROTLI_COMPRESSION"
  if !(truthy (get_setting host "GZIP_COMPRESSION" dGz)
      || truthy (get_setting host "BROTLI_COMPRESSION" dBr)) then
    return ([], [])
  let dMax ← defaultsItem "MAX_FILES_PER_RUN"
  let maxFiles :=
    let v := get_setting host "MAX_FILES_PER_RUN" dMax
    if truthy v then pyToInt v else 1000
  return compressLoop (fun p => (readFileContent st host p).1) C st host
    maxFiles paths 0

/-! ## `storage.MinicompressStorage` (the orchestrator) -/

/-- Redirect the first manifest entry whose current value is `hashedRel` to
`minifiedRel` (the inner `for …: if …: …; break` of `_update_manifest`). -/
def manifestRedirect : List (Str × Str) → Str → Str → List (Str × Str)
  | [], _, _ => []
  | (k, v) :: rest, hashedRel, minifiedRel =>
    if v = hashedRel then (k, minifiedRel) :: rest
    else (k, v) :: manifestRedirect rest hashedRel minifiedRel

/-- `MinicompressStorage._update_manifest`: for every minified pair, normalize
both paths to storage-relative form and redirect the matching entry. -/
def updateManifest (manifest : List (Str × Str))
    (minified_files : List (Str × Str)) : List (Str × Str) :=
  minified_files.foldl
    (fun m hv => manifestRedirect m (relativePathOf hv.1) (relativePathOf hv.2))
    manifest

/-- The observable outcome of one `post_process` run: the entries yielded to
the collection command, the writes this system performed, the manifest
afterwards, and whether this system rewrote it. -/
structure PostProcessResult where
  yields : List (Str × Str × Bool)
  writes : List WriteEvent
  manifest : Option (List (Str × Str))
  manifestRewritten : Bool
  deriving Repr

/-- `MinicompressStorage.post_process(paths, dry_run)`.

`super().post_process` is Django code outside this repository; the entries it
reports are taken as the input `superYields`, and `manifest` is the `paths`
member of the manifest it persisted (`none`: no manifest/empty JSON).
`paths` is the key list of the supplied paths dict. -/
def postProcess (st : Storage) (M : Minifiers) (C : Codecs)
    (host : HostSettings) (superYields : List (Str × Str × Bool))
    (manifest : Option (List (Str × Str))) (paths : List Str)
    (dry_run : Bool) : Except String PostProcessResult := do
  if dry_run then return ⟨superYields, [], manifest, false⟩
  let processed_paths :=
    match manifest with
    | some m => if m.isEmpty then paths else m.map Prod.snd
    | Option.none => paths
  let mres ← processMinification st M host processed_paths
  let minified := mres.1
  let yields := superYields ++ minified.map (fun om => (om.1, om.2, true))
  let all_paths := processed_paths ++ minified.map Prod.snd
  let cres ← processCompression st C host all_paths
  if minified.isEmpty then
    return ⟨yields, mres.2 ++ cres.2, manifest, false⟩
  else
    return ⟨yields, mres.2 ++ cres.2,
      some (updateManifest (manifest.getD []) minified), true⟩

/-! ## Specification-side definitions and concrete fixtures -/

/-- The exclude-pattern semantics exactly as the specification words them:
`"*.min."` by substring, `"*-min.*"` by substring, any other `*`-pattern by
suffix comparison against the pattern with the leading `*` stripped, any other
pattern by plain suffix comparison. -/
def specMatches (pat filename : Str) : Bool :=
  if pat = "*.min.*".data then containsSub filename ".min.".data
  else if pat = "*-min.*".data then containsSub filename "-min.".data
  else
    match pat with
    | '*' :: r => endsWithL filename r
    | _ => endsWithL filename pat

/-- A 12-character lowercase hexadecimal hash value. -/
def isHash12 (h : Str) : Bool := h.length == 12 && h.all isHexLower

/-- A storage with no backend files, no filesystem files, identity path
resolution (a concrete evaluation fixture). -/
def stEmpty : Storage := ⟨fun _ => Option.none, fun _ => Option.none, fun p => p⟩

/-- Minifiers that always throw (a concrete evaluation fixture). -/
def failingMinifiers : Minifiers :=
  ⟨fun _ _ => .error "ValueError", fun _ _ => .error "ValueError"⟩

/-- A read capability that returns the same bytes for every path (a concrete
evaluation fixture). -/
def constReader (bytes : List Nat) : Str → Except String (Option (List Nat)) :=
  fun _ => .ok (some bytes)

/-- A small CSS source (a concrete evaluation fixture). -/
def sampleCss : Str := "body { margin: 0; }".data

/-! ## Supporting lemmas: hashing -/

theorem md5digest_length (msg : List Nat) : (md5digest msg).length = 16 := by
  unfold md5digest
  generalize (chunks64 (padMsg msg)).foldl mdChunk
    (0x67452301, 0xefcdab89, 0x98badcfe, 0x10325476) = st
  obtain ⟨a, b, c, d⟩ := st
  simp [wordBytes]

theorem hexChar_isHexLower (n : Nat) : isHexLower (hexChar n) = true := by
  have hlt : n % 16 < 16 := Nat.mod_lt _ (by norm_num)
  have hdigits : ∀ c ∈ hexDigits, isHexLower c = true := by decide
  apply hdigits
  unfold hexChar
  rw [List.getD_eq_getElem?_getD]
  have : hexDigits.length = 16 := by decide
  rw [List.getElem?_eq_getElem (by omega)]
  exact List.getElem_mem _

theorem toHexStr_length (l : List Nat) : (toHexStr l).length = 2 * l.length := by
  induction l with
  | nil => rfl
  | cons b t ih =>
    simp only [toHexStr, List.map_cons, List.flatten_cons, List.length_append,
      List.length_cons] at ih ⊢
    simp [byteHex, ih]
    ring

theorem toHexStr_all_hex (l : List Nat) :
    ∀ c ∈ toHexStr l, isHexLower c = true := by
  induction l with
  | nil => intro c hc; cases hc
  | cons b t ih =>
    intro c hc
    simp only [toHexStr, List.map_cons, List.flatten_cons, List.mem_append] at hc
    rcases hc with hc | hc
    · simp only [byteHex, List.mem_cons, List.not_mem_nil, or_false] at hc
      rcases hc with rfl | rfl
      · exact hexChar_isHexLower _
      · exact hexChar_isHexLower _
    · exact ih c hc

/-! ## Claim C9 -/

/-- C9: for every byte buffer `b` and requested length `n`,
`generate_file_hash(b, n)` deterministically returns exactly `min n 32`
lowercase hexadecimal characters — the MD5 hex digest has 32 characters, so a
request for more than 32 is silently capped at 32. -/
theorem generate_file_hash_length_capped (b : List Nat) (n : Nat) :
    (generate_file_hash b n).length = min n 32 ∧
      ∀ c ∈ generate_file_hash b n, isHexLower c = true := by
  constructor
  · have h32 : (md5hex b).length = 32 := by
      rw [md5hex, toHexStr_length, md5digest_length]
    rw [generate_file_hash, List.length_take, h32]
  · intro c hc
    exact toHexStr_all_hex _ c (List.mem_of_mem_take hc)

/-- Witness for C9 at a concrete buffer and an over-long request. -/
theorem generate_file_hash_length_capped_witness :
    (generate_file_hash [97] 40).length = min 40 32 ∧ isHexLower '0' = true :=
  ⟨(generate_file_hash_length_capped [97] 40).1,
    (generate_file_hash_length_capped [97] 40).2 '0' (by decide)⟩

/-! ## Claim C10 -/

/-- C10: a path whose name has no extension normalizes to the empty extension,
which is never in a supported set not containing the empty string, so
`should_process_file` returns `false` whatever the exclude patterns are. -/
theorem should_process_file_no_extension (p : Str)
    (supported patterns : List Str)
    (hsuf : (splitExt (parsePath p).name).2 = [])
    (hne : ([] : Str) ∉ supported) :
    should_process_file p supported patterns = false := by
  have hcont : supported.contains ([] : Str) = false := by
    simpa using hne
  simp only [should_process_file, hsuf]
  have hext : normalize_extension [] = [] := rfl
  rw [hext, hcont]
  simp

/-- Witness for C10 at a concrete input. -/
theorem should_process_file_no_extension_witness :
    (splitExt (parsePath "README".data).name).2 = [] ∧
      ([] : Str) ∉ ["css".data] ∧
      should_process_file "README".data ["css".data] ["*.min.*".data] = false :=
  ⟨by decide, by decide,
    should_process_file_no_extension _ _ _ (by decide) (by decide)⟩

/-! ## Claim C7 -/

/-- C7: with the dry-run flag set, `post_process` performs no minification, no
compression, and no manifest rewrite — it writes nothing and leaves the
manifest unchanged — while yielding exactly what the delegated host
post-processing step reported. -/
theorem post_process_dry_run_transparent (st : Storage) (M : Minifiers)
    (C : Codecs) (host : HostSettings) (superYields : List (Str × Str × Bool))
    (manifest : Option (List (Str × Str))) (paths : List Str) :
    postProcess st M C host superYields manifest paths true =
      .ok ⟨superYields, [], manifest, false⟩ := rfl

/-! ## Claim C3 -/

/-- C3 fails on the code: `DEFAULT_SETTINGS` has no `MAX_FILES_PER_RUN` or
`MAX_FILE_SIZE` entry, so the unconditional `DEFAULT_SETTINGS[...]` lookups in
`process_minification` and `process_compression` raise `KeyError` with the
host configuration omitting these settings (indeed with any host
configuration), instead of substituting the literal defaults 1000 and
10485760 and proceeding. -/
theorem max_settings_missing_keyerror :
    defaultsLookup "MAX_FILES_PER_RUN" = Option.none ∧
      defaultsLookup "MAX_FILE_SIZE" = Option.none ∧
      (∀ (st : Storage) (M : Minifiers) (paths : List Str),
        processMinification st M emptyHost paths =
          .error "KeyError: MAX_FILES_PER_RUN") ∧
      (∀ (st : Storage) (C : Codecs) (paths : List Str),
        processCompression st C emptyHost paths =
          .error "KeyError: MAX_FILES_PER_RUN") :=
  ⟨rfl, rfl, fun _ _ _ => rfl, fun _ _ _ => rfl⟩

/-! ## Claim C1 -/

/-- C1 fails on the code, for two independent reasons.  First, under default
settings every compression run dies with `KeyError` while resolving
`DEFAULT_SETTINGS["MAX_FILES_PER_RUN"]`, so no `.gz` sibling of any path is
produced.  Second, even the per-path eligibility gate rejects a minified path
such as `css/app.min.bbbbbbbbbbbb.css`: its filename contains `.min.`, which
the default exclude pattern `*.min.*` excludes, so `should_process` — and
hence `should_process_compression` — is `false` for it. -/
theorem compression_produces_no_gz_sibling_of_minified :
    (∀ (st : Storage) (C : Codecs),
      processCompression st C emptyHost
        ["css/app.aaaaaaaaaaaa.css".data, "css/app.min.bbbbbbbbbbbb.css".data] =
        .error "KeyError: MAX_FILES_PER_RUN") ∧
      fmShouldProcess emptyHost "css/app.min.bbbbbbbbbbbb.css".data = false ∧
      (∀ st : Storage,
        should_process_compression st emptyHost
          "css/app.min.bbbbbbbbbbbb.css".data = false) :=
  ⟨fun _ _ => rfl, by decide, fun st => by
    unfold should_process_compression
    have h : fmShouldProcess emptyHost "css/app.min.bbbbbbbbbbbb.css".data
        = false := by decide
    rw [h]
    rfl⟩

/-! ## Claim C2 -/

/-- C2: an unsafe path — one attempting to escape the asset root via
parent-directory traversal — is rejected by the read/write helpers before any
read or write occurs: the read helper returns the skip outcome having opened
nothing and without raising, and the write helper performs no write.
(`is_safe_path` itself is modelled from the spec, its definition being absent
from the sources.) -/
theorem unsafe_path_rejected (st : Storage) (host : HostSettings) (path : Str)
    (content : List Nat) (h : is_safe_path path = false) :
    readFileContent st host path = (.ok Option.none, []) ∧
      writeFileContent path content = [] := by
  constructor
  · unfold readFileContent
    rw [h]
    rfl
  · unfold writeFileContent
    rw [h]
    rfl

/-- Witness for C2 at a concrete traversal path. -/
theorem unsafe_path_rejected_witness :
    is_safe_path "../../etc/passwd".data = false ∧
      readFileContent stEmpty emptyHost "../../etc/passwd".data =
        (.ok Option.none, []) ∧
      writeFileContent "../../etc/passwd".data [104, 105] = [] :=
  ⟨by decide,
    (unsafe_path_rejected stEmpty emptyHost _ [104, 105] (by decide)).1,
    (unsafe_path_rejected stEmpty emptyHost _ [104, 105] (by decide)).2⟩

/-! ## Claim C8 -/

/-- C8: whatever value `COMPRESSION_LEVEL_GZIP` / `COMPRESSION_LEVEL_BROTLI`
resolves to (any integer, zero and negatives included), the level the code
passes to the gzip encoder lies in `[0, 9]` and the quality passed to the
Brotli encoder lies in `[0, 11]`; with the setting absent from host
configuration, gzip compresses at level 9 and Brotli at quality 11. -/
theorem compression_levels_clamped (host : HostSettings) (C : Codecs)
    (content : List Nat) :
    (0 ≤ gzipLevelResolved host ∧ gzipLevelResolved host ≤ 9) ∧
      (0 ≤ brotliLevelResolved host ∧ brotliLevelResolved host ≤ 11) ∧
      (host "COMPRESSION_LEVEL_GZIP" = Option.none →
        gzipLevelResolved host = 9) ∧
      (host "COMPRESSION_LEVEL_BROTLI" = Option.none →
        brotliLevelResolved host = 11) ∧
      gzip_compress C host content =
        C.gzipEncode (gzipLevelResolved host) content ∧
      brotli_compress C host content =
        C.brotliEncode (brotliLevelResolved host) content := by
  refine ⟨⟨le_max_left _ _, max_le (by norm_num) (min_le_left _ _)⟩,
    ⟨le_max_left _ _, max_le (by norm_num) (min_le_left _ _)⟩, ?_, ?_, rfl, rfl⟩
  · intro h
    simp only [gzipLevelResolved, get_setting, h]
    rfl
  · intro h
    simp only [brotliLevelResolved, get_setting, h]
    rfl

/-- Witness for C8: the default host, a negative gzip level, and a zero
Brotli quality. -/
theorem compression_levels_clamped_witness :
    (emptyHost "COMPRESSION_LEVEL_GZIP" = Option.none →
      gzipLevelResolved emptyHost = 9) ∧
      (emptyHost "COMPRESSION_LEVEL_BROTLI" = Option.none →
        brotliLevelResolved emptyHost = 11) ∧
      gzipLevelResolved emptyHost = 9 ∧ brotliLevelResolved emptyHost = 11 :=
  ⟨(compression_levels_clamped emptyHost ⟨fun _ c => c, fun _ c => c⟩ []).2.2.1,
    (compression_levels_clamped emptyHost ⟨fun _ c => c, fun _ c => c⟩ []).2.2.2.1,
    (compression_levels_clamped emptyHost ⟨fun _ c => c, fun _ c => c⟩ []).2.2.1 rfl,
    (compression_levels_clamped emptyHost ⟨fun _ c => c, fun _ c => c⟩ []).2.2.2.1 rfl⟩

/-! ## Claim C5 -/

/-- If `l` ends with `a ++ s ++ b` then `s` occurs in `l` as a substring. -/
theorem containsSub_of_endsWithL_decomp (l a s b : Str)
    (h : endsWithL l (a ++ s ++ b) = true) : containsSub l s = true := by
  rw [endsWithL_iff] at h
  rw [containsSub_iff]
  rcases h with ⟨u, rfl⟩
  exact ⟨u ++ a, b, by simp⟩

theorem startsWithL_nil (l : Str) : startsWithL l [] = true := by
  cases l <;> rfl

theorem endsWithL_nil (l : Str) : endsWithL l [] = true := by
  rw [endsWithL, List.reverse_nil]
  exact startsWithL_nil _

/-- The `elif` chain of the exclude-pattern loop computes exactly the
pattern semantics the specification describes. -/
theorem patternExcludes_eq_specMatches (pat filename : Str) :
    patternExcludes pat filename = specMatches pat filename := by
  by_cases h1 : pat = "*.min.*".data
  · subst h1
    by_cases hc : containsSub filename ".min.".data = true
    · simp [patternExcludes, specMatches, hc]
    · have h3 : endsWithL filename (".min.*".data) = false := by
        cases he : endsWithL filename (".min.*".data)
        · rfl
        · exact absurd (containsSub_of_endsWithL_decomp filename []
            ".min.".data "*".data (by simpa using he)) hc
      have h4 : endsWithL filename ("*.min.*".data) = false := by
        cases he : endsWithL filename ("*.min.*".data)
        · rfl
        · exact absurd (containsSub_of_endsWithL_decomp filename "*".data
            ".min.".data "*".data (by simpa using he)) hc
      simp only [patternExcludes, specMatches]
      simp [hc, h3, h4, startsWithL]
  · by_cases h2 : pat = "*-min.*".data
    · subst h2
      by_cases hc : containsSub filename "-min.".data = true
      · simp [patternExcludes, specMatches, hc, h1]
      · have h3 : endsWithL filename ("-min.*".data) = false := by
          cases he : endsWithL filename ("-min.*".data)
          · rfl
          · exact absurd (containsSub_of_endsWithL_decomp filename []
              "-min.".data "*".data (by simpa using he)) hc
        have h4 : endsWithL filename ("*-min.*".data) = false := by
          cases he : endsWithL filename ("*-min.*".data)
          · rfl
          · exact absurd (containsSub_of_endsWithL_decomp filename "*".data
              "-min.".data "*".data (by simpa using he)) hc
        simp only [patternExcludes, specMatches]
        simp [hc, h3, h4, startsWithL, h1]
    · cases pat with
      | nil =>
        simp [patternExcludes, specMatches, h1, h2, startsWithL, endsWithL_nil]
      | cons c r =>
        by_cases hcstar : c = '*'
        · subst hcstar
          by_cases hr : endsWithL filename r = true
          · simp [patternExcludes, specMatches, h1, h2, startsWithL, hr]
          · have h4 : endsWithL filename ('*' :: r) = false := by
              cases he : endsWithL filename ('*' :: r)
              · rfl
              · exact absurd (endsWithL_of_endsWithL_append filename ['*'] r
                  (by simpa using he)) (by simp [hr])
            simp [patternExcludes, specMatches, h1, h2, startsWithL, hr, h4]
        · have hstart : startsWithL (c :: r) ['*'] = false := by
            simp [startsWithL, hcstar]
          simp only [patternExcludes, specMatches]
          simp [h1, h2, hstart, hcstar]

/-- C5: `should_process_file` returns `false` exactly when the supported set
is empty, or the normalized extension is not in it, or some exclude pattern
matches the filename under the specification's pattern semantics
(`specMatches`); otherwise the file is eligible. -/
theorem should_process_file_spec (p : Str) (supported patterns : List Str) :
    should_process_file p supported patterns = false ↔
      supported = [] ∨
        normalize_extension (splitExt (parsePath p).name).2 ∉ supported ∨
        ∃ pat ∈ patterns, specMatches pat (parsePath p).name = true := by
  have hrw : should_process_file p supported patterns =
      (if (supported.isEmpty
            || !supported.contains
              (normalize_extension (splitExt (parsePath p).name).2)) = true
        then false
        else !patterns.any (fun pat => patternExcludes pat (parsePath p).name)) :=
    rfl
  rw [hrw]
  by_cases h : (supported.isEmpty
      || !supported.contains
        (normalize_extension (splitExt (parsePath p).name).2)) = true
  · rw [if_pos h]
    have h' : supported.isEmpty = true
        ∨ supported.contains
            (normalize_extension (splitExt (parsePath p).name).2) = false := by
      rcases hb : supported.isEmpty with _ | _
      · right
        rcases hc : supported.contains
            (normalize_extension (splitExt (parsePath p).name).2) with _ | _
        · rfl
        · rw [hb, hc] at h
          exact absurd h (by decide)
      · exact Or.inl rfl
    constructor
    · intro _
      rcases h' with h' | h'
      · exact Or.inl (List.isEmpty_iff.mp h')
      · refine Or.inr (Or.inl ?_)
        intro hmem
        simp [hmem] at h'
    · intro _
      rfl
  · rw [if_neg h]
    have h1 : supported.isEmpty = false := by
      rcases hb : supported.isEmpty with _ | _
      · rfl
      · exact absurd (by rw [hb]; rfl : (supported.isEmpty
          || !supported.contains
            (normalize_extension (splitExt (parsePath p).name).2)) = true) h
    have h2 : supported.contains
        (normalize_extension (splitExt (parsePath p).name).2) = true := by
      rcases hc : supported.contains
          (normalize_extension (splitExt (parsePath p).name).2) with _ | _
      · exact absurd (by rw [hc, h1]; rfl : (supported.isEmpty
          || !supported.contains
            (normalize_extension (splitExt (parsePath p).name).2)) = true) h
      · rfl
    have hne' : ¬supported = [] := by
      intro hh
      rw [hh] at h1
      exact absurd h1 (by decide)
    have hmem' : normalize_extension (splitExt (parsePath p).name).2
        ∈ supported := by
      simpa using h2
    constructor
    · intro hl
      refine Or.inr (Or.inr ?_)
      have hany : patterns.any
          (fun pat => patternExcludes pat (parsePath p).name) = true := by
        simpa using hl
      rcases List.any_eq_true.mp hany with ⟨pat, hpat, hx⟩
      exact ⟨pat, hpat, by rw [← patternExcludes_eq_specMatches]; exact hx⟩
    · rintro (hh | hh | ⟨pat, hpat, hx⟩)
      · exact absurd hh hne'
      · exact absurd hmem' hh
      · have hany : patterns.any
            (fun pat => patternExcludes pat (parsePath p).name) = true :=
          List.any_eq_true.mpr
            ⟨pat, hpat, by rw [patternExcludes_eq_specMatches]; exact hx⟩
        simp [hany]

/-- Witness for C5: the default patterns exclude `jquery.min.css` and admit
`app.css`, through the specification's pattern semantics. -/
theorem should_process_file_spec_witness :
    should_process_file "jquery.min.css".data ["css".data] ["*.min.*".data]
        = false ∧
      ¬should_process_file "app.css".data ["css".data] ["*.min.*".data]
        = false :=
  ⟨(should_process_file_spec "jquery.min.css".data ["css".data]
      ["*.min.*".data]).mpr
      (Or.inr (Or.inr ⟨"*.min.*".data, by decide, by decide⟩)),
    fun h =>
      by rcases (should_process_file_spec "app.css".data ["css".data]
          ["*.min.*".data]).mp h with hh | hh | ⟨pat, hp, hm⟩
         · exact absurd hh (by decide)
         · exact hh (by decide)
         · rcases List.mem_singleton.mp hp with rfl
           exact absurd hm (by decide)⟩

/-! ## Claim C4 -/

/-- Every entry of the map built by the `process_minification` loop comes from
an accepting run of the loop body. -/
theorem minifyLoop_mem (reader : Str → Except String (Option (List Nat)))
    (M : Minifiers) (host : HostSettings) (maxFiles : Int) :
    ∀ (paths : List Str) (count : Nat) (p mp : Str),
      (p, mp) ∈ (minifyLoop reader M host maxFiles paths count).1 →
      ∃ ws, minifyStep reader M host p = some (mp, ws) := by
  intro paths
  induction paths with
  | nil =>
    intro count p mp h
    simp [minifyLoop] at h
  | cons q rest ih =>
    intro count p mp h
    rw [minifyLoop] at h
    by_cases hc : (count : Int) ≥ maxFiles
    · rw [if_pos hc] at h
      simp at h
    · rw [if_neg hc] at h
      cases hs : minifyStep reader M host q with
      | none =>
        rw [hs] at h
        exact ih _ p mp h
      | some r =>
        rw [hs] at h
        obtain ⟨mq, ws⟩ := r
        simp only [List.mem_cons, Prod.mk.injEq] at h
        rcases h with ⟨rfl, rfl⟩ | h
        · exact ⟨ws, hs⟩
        · exact ih _ p mp h

/-- C4: the loop body of `process_minification` persists and records a file in
the original→minified result map only if the minified content is strictly
smaller than the original; a minifier failure is caught and yields the
original content, so such a file is not recorded — and the loop body returns
the skip outcome rather than propagating any exception. -/
theorem minification_accepts_only_smaller
    (reader : Str → Except String (Option (List Nat))) (M : Minifiers)
    (host : HostSettings) (path : Str) :
    (∀ mp ws, minifyStep reader M host path = some (mp, ws) →
      ∃ bytes content, reader path = .ok (some bytes) ∧
        utf8Decode bytes = some content ∧
        (minify_file_content M host content (getFileType path)).length
          < content.length) ∧
      (∀ content e, M.cssmin content (preserveComments host) = .error e →
        minify_file_content M host content "css".data = content) ∧
      (∀ content e, M.jsmin content (preserveComments host) = .error e →
        minify_file_content M host content "js".data = content) ∧
      (∀ bytes content e, reader path = .ok (some bytes) →
        utf8Decode bytes = some content →
        getFileType path = "css".data →
        M.cssmin content (preserveComments host) = .error e →
        minifyStep reader M host path = Option.none) ∧
      (∀ (maxFiles : Int) (paths : List Str) (count : Nat) (p mp : Str),
        (p, mp) ∈ (minifyLoop reader M host maxFiles paths count).1 →
        ∃ ws, minifyStep reader M host p = some (mp, ws)) := by
  refine ⟨?_, ?_, ?_, ?_, fun maxFiles paths count p mp h =>
    minifyLoop_mem reader M host maxFiles paths count p mp h⟩
  · intro mp ws h
    rw [minifyStep] at h
    split at h
    · cases h
    · split at h
      · cases h
      · cases h
      · rename_i bytes hr
        split at h
        · cases h
        · rename_i content hd
          dsimp only at h
          split at h
          · rename_i hlt
            exact ⟨bytes, content, hr, hd, hlt⟩
          · cases h
  · intro content e he
    rw [minify_file_content, if_pos rfl, he]
  · intro content e he
    have hne : ("js".data : Str) ≠ "css".data := by decide
    rw [minify_file_content, if_neg hne, if_pos rfl, he]
  · intro bytes content e hr hd hft hcss
    have hmin : minify_file_content M host content (getFileType path)
        = content := by
      rw [hft, minify_file_content, if_pos rfl, hcss]
    rw [minifyStep]
    rcases hsp : should_process_minification host path with _ | _
    · simp
    · simp [hr, hd, hmin]

/-- Witness for C4: a CSS file whose minifier throws is skipped, with no
exception escaping the loop body. -/
theorem minification_accepts_only_smaller_witness :
    minifyStep (constReader (utf8Encode sampleCss)) failingMinifiers emptyHost
      "style.css".data = Option.none :=
  (minification_accepts_only_smaller (constReader (utf8Encode sampleCss))
      failingMinifiers emptyHost "style.css".data).2.2.2.1
    (utf8Encode sampleCss) sampleCss "ValueError" rfl (by decide) (by decide)
    rfl

/-! ## Claim C6: path-parsing lemmas -/

theorem splitSlash_ne_nil (l : Str) : splitSlash l ≠ [] := by
  cases l with
  | nil => simp [splitSlash]
  | cons c t =>
    rw [splitSlash]
    rcases hs : splitSlash t with _ | ⟨h, r⟩
    · simp
    · by_cases hc : c = '/' <;> simp [hc]

theorem splitSlash_no_slash (l : Str) (h : ∀ c ∈ l, c ≠ '/') :
    splitSlash l = [l] := by
  induction l with
  | nil => rfl
  | cons c t ih =>
    have ht : splitSlash t = [t] := ih (fun x hx => h x (List.mem_cons_of_mem _ hx))
    rw [splitSlash, ht]
    have hc : ¬c = '/' := h c (List.mem_cons_self _ _)
    simp [hc]

theorem splitSlash_append (l1 l2 : Str) (h : ∀ c ∈ l1, c ≠ '/') :
    splitSlash (l1 ++ '/' :: l2) = l1 :: splitSlash l2 := by
  induction l1 with
  | nil =>
    rw [List.nil_append, splitSlash]
    rcases hs : splitSlash l2 with _ | ⟨x, r⟩
    · exact absurd hs (splitSlash_ne_nil l2)
    · simp
  | cons c t ih =>
    have ht := ih (fun x hx => h x (List.mem_cons_of_mem _ hx))
    rw [List.cons_append, splitSlash, ht]
    have hc : ¬c = '/' := h c (List.mem_cons_self _ _)
    simp [hc]

theorem splitSlash_parts_no_slash (l : Str) :
    ∀ part ∈ splitSlash l, ∀ c ∈ part, c ≠ '/' := by
  induction l with
  | nil =>
    intro part hp
    simp [splitSlash] at hp
    subst hp
    intro c hc
    cases hc
  | cons a t ih =>
    intro part hp c hc
    rw [splitSlash] at hp
    rcases hs : splitSlash t with _ | ⟨x, r⟩
    · exact absurd hs (splitSlash_ne_nil t)
    · rw [hs] at hp
      dsimp only at hp
      by_cases ha : a = '/'
      · rw [if_pos ha, List.mem_cons] at hp
        rcases hp with hp | hp
        · subst hp; cases hc
        · exact ih part (hs ▸ hp) c hc
      · rw [if_neg ha, List.mem_cons] at hp
        rcases hp with hp | hp
        · subst hp
          rw [List.mem_cons] at hc
          rcases hc with hc | hc
          · rw [hc]; exact ha
          · exact ih x (hs ▸ List.mem_cons_self _ _) c hc
        · exact ih part (hs ▸ List.mem_cons_of_mem _ hp) c hc

/-- Every retained component of a parsed path is nonempty, is not `"."`, and
contains no `/`. -/
theorem pathParts_invariant (s : Str) :
    ∀ part ∈ pathParts s, part ≠ [] ∧ part ≠ ['.'] ∧ ∀ c ∈ part, c ≠ '/' := by
  intro part hp
  rw [pathParts] at hp
  have hmem := List.mem_of_mem_filter hp
  have hpred := List.of_mem_filter hp
  simp only [Bool.not_eq_true', Bool.or_eq_false_iff] at hpred
  refine ⟨?_, ?_, splitSlash_parts_no_slash s part hmem⟩
  · intro hh
    rw [hh] at hpred
    exact absurd hpred.1 (by decide)
  · intro hh
    rw [hh] at hpred
    exact absurd hpred.2 (by decide)

theorem isAbsL_cons_ne (c : Char) (t : Str) (h : c ≠ '/') :
    isAbsL (c :: t) = false := by
  simp [isAbsL, h]

theorem isAbsL_of_no_slash (l : Str) (h : ∀ c ∈ l, c ≠ '/') :
    isAbsL l = false := by
  cases l with
  | nil => rfl
  | cons c t => exact isAbsL_cons_ne c t (h c (List.mem_cons_self _ _))

/-- Parsing a single slash-free, non-dot, nonempty component yields exactly
that component. -/
theorem pathParts_single (l : Str) (hne : l ≠ []) (hdot : l ≠ ['.'])
    (h : ∀ c ∈ l, c ≠ '/') : pathParts l = [l] := by
  rw [pathParts, splitSlash_no_slash l h]
  have h1 : l.isEmpty = false := by
    rcases l with _ | _
    · exact absurd rfl hne
    · rfl
  have h2 : (l == ['.']) = false := by
    simpa using hdot
  simp [h1, h2]

theorem splitSlash_joinParts (ps : List Str) (hne : ps ≠ [])
    (h : ∀ part ∈ ps, ∀ c ∈ part, c ≠ '/') :
    splitSlash ((ps.intersperse ['/']).flatten) = ps := by
  induction ps with
  | nil => exact absurd rfl hne
  | cons x rest ih =>
    rcases rest with _ | ⟨y, rest'⟩
    · simp only [List.intersperse_single, List.flatten_cons, List.flatten_nil,
        List.append_nil]
      exact splitSlash_no_slash x (h x (List.mem_cons_self _ _))
    · have hx : ∀ c ∈ x, c ≠ '/' := h x (List.mem_cons_self _ _)
      have hy : ∀ part ∈ y :: rest', ∀ c ∈ part, c ≠ '/' :=
        fun part hp => h part (List.mem_cons_of_mem _ hp)
      have hrec := ih (by simp) hy
      rw [List.intersperse_cons₂, List.flatten_cons, List.flatten_cons]
      have heq : x ++ (['/'] ++ ((y :: rest').intersperse ['/']).flatten) =
          x ++ '/' :: ((y :: rest').intersperse ['/']).flatten := by simp
      rw [heq, splitSlash_append _ _ hx, hrec]

/-- The parse-invariant filter keeps every component satisfying it. -/
theorem filterKeep (ps : List Str)
    (h : ∀ part ∈ ps, part ≠ [] ∧ part ≠ ['.']) :
    ps.filter (fun c => !(c.isEmpty || c == ['.'])) = ps := by
  rw [List.filter_eq_self]
  intro part hp
  obtain ⟨h1, h2⟩ := h part hp
  have e1 : part.isEmpty = false := by
    rcases part with _ | _
    · exact absurd rfl h1
    · rfl
  have e2 : (part == ['.']) = false := by simpa using h2
  simp [e1, e2]

theorem splitSlash_cons_slash (X : Str) :
    splitSlash ('/' :: X) = [] :: splitSlash X := by
  rw [splitSlash]
  rcases hs : splitSlash X with _ | ⟨x, r⟩
  · exact absurd hs (splitSlash_ne_nil X)
  · simp

/-- The flattened interspersion of a component list starts with its first
component. -/
theorem flatten_intersperse_head (p0 : Str) (rest : List Str) :
    ∃ X, ((p0 :: rest).intersperse ['/']).flatten = p0 ++ X := by
  rcases rest with _ | ⟨y, rest'⟩
  · exact ⟨[], by simp⟩
  · refine ⟨'/' :: ((y :: rest').intersperse ['/']).flatten, ?_⟩
    rw [List.intersperse_cons₂]
    simp

/-- Rendering a path whose components satisfy the parse invariant and parsing
it back is the identity. -/
theorem parsePath_render (q : PPath)
    (h : ∀ part ∈ q.parts, part ≠ [] ∧ part ≠ ['.'] ∧ ∀ c ∈ part, c ≠ '/') :
    parsePath q.render = q := by
  obtain ⟨abs, parts⟩ := q
  simp only at h
  rcases abs with _ | _
  · rcases parts with _ | ⟨p0, rest⟩
    · rfl
    · simp only [PPath.render]
      have hjoin := splitSlash_joinParts (p0 :: rest) (by simp)
        (fun part hp => (h part hp).2.2)
      obtain ⟨hp0ne, hp0dot, hp0s⟩ := h p0 (List.mem_cons_self _ _)
      obtain ⟨X, hX⟩ := flatten_intersperse_head p0 rest
      rw [parsePath]
      have habs : isAbsL (((p0 :: rest).intersperse ['/']).flatten) = false := by
        rw [hX]
        rcases p0 with _ | ⟨a, u⟩
        · exact absurd rfl hp0ne
        · rw [List.cons_append]
          exact isAbsL_cons_ne a (u ++ X) (hp0s a (List.mem_cons_self _ _))
      rw [habs]
      simp only [PPath.mk.injEq, true_and]
      rw [pathParts, hjoin]
      exact filterKeep _ (fun part hp => ⟨(h part hp).1, (h part hp).2.1⟩)
  · simp only [PPath.render]
    rw [parsePath]
    have habs : isAbsL ('/' :: (parts.intersperse ['/']).flatten) = true := rfl
    rw [habs]
    simp only [PPath.mk.injEq, true_and]
    rw [pathParts, splitSlash_cons_slash]
    have hred : List.filter (fun (c : Str) => !(c.isEmpty || c == ['.']))
        ([] :: splitSlash ((parts.intersperse ['/']).flatten)) =
        List.filter (fun (c : Str) => !(c.isEmpty || c == ['.']))
          (splitSlash ((parts.intersperse ['/']).flatten)) := by
      rw [List.filter_cons]
      simp
    rw [hred]
    rcases parts with _ | ⟨p0, rest⟩
    · rfl
    · have hjoin := splitSlash_joinParts (p0 :: rest) (by simp)
        (fun part hp => (h part hp).2.2)
      rw [hjoin]
      exact filterKeep _ (fun part hp => ⟨(h part hp).1, (h part hp).2.1⟩)

/-! ## Claim C6: stem/suffix and hash-stripping lemmas -/

theorem splitAtDotRev_append_no_dot (a b : Str) (h : '.' ∉ a) :
    splitAtDotRev (a ++ '.' :: b) = some ([] ++ a, b) := by
  induction a with
  | nil => simp [splitAtDotRev]
  | cons c t ih =>
    have hc : ¬c = '.' := by
      intro hh
      exact h (hh ▸ List.mem_cons_self _ _)
    rw [List.cons_append, splitAtDotRev, if_neg hc,
      ih (fun hh => h (List.mem_cons_of_mem _ hh))]
    simp

theorem splitAtDotRev_sound (l : Str) :
    ∀ a b, splitAtDotRev l = some (a, b) → l = a ++ '.' :: b ∧ '.' ∉ a := by
  induction l with
  | nil => intro a b h; cases h
  | cons c t ih =>
    intro a b h
    rw [splitAtDotRev] at h
    by_cases hc : c = '.'
    · rw [if_pos hc] at h
      injection h with h'
      cases h'
      constructor
      · rw [hc]
        rfl
      · simp
    · rw [if_neg hc] at h
      cases hs : splitAtDotRev t with
      | none =>
        rw [hs] at h
        cases h
      | some pr =>
        obtain ⟨a', b'⟩ := pr
        rw [hs] at h
        simp only [Option.map_some'] at h
        injection h with h'
        rw [Prod.mk.injEq] at h'
        obtain ⟨ha, hb⟩ := h'
        subst ha
        subst hb
        obtain ⟨ht, hd⟩ := ih a' b' hs
        constructor
        · rw [List.cons_append, ← ht]
        · intro hm
          rcases List.mem_cons.mp hm with hm | hm
          · exact hc hm.symm
          · exact hd hm

/-- Splitting a well-formed `stem ++ "." ++ ext` name recovers the stem and
the dot-extension. -/
theorem splitExt_build (stem ext : Str) (hstem : stem ≠ []) (hext : ext ≠ [])
    (hdot : '.' ∉ ext) : splitExt (stem ++ '.' :: ext) = (stem, '.' :: ext) := by
  rw [splitExt]
  have hrev : (stem ++ '.' :: ext).reverse = ext.reverse ++ '.' :: stem.reverse := by
    simp
  rw [hrev, splitAtDotRev_append_no_dot _ _ (fun hh => hdot (List.mem_reverse.mp hh))]
  have h1 : (ext.reverse).isEmpty = false := by
    rcases he : ext.reverse with _ | _
    · exact absurd (by simpa using he) hext
    · rfl
  have h2 : (stem.reverse).isEmpty = false := by
    rcases he : stem.reverse with _ | _
    · exact absurd (by simpa using he) hstem
    · rfl
  simp [h1, h2]

/-- A name whose computed suffix is nonempty decomposes as
`stem ++ "." ++ ext` with a nonempty stem and a nonempty, dot-free extension. -/
theorem splitExt_spec (name : Str) (h : (splitExt name).2 ≠ []) :
    ∃ stem ext, splitExt name = (stem, '.' :: ext) ∧
      name = stem ++ '.' :: ext ∧ stem ≠ [] ∧ ext ≠ [] ∧ '.' ∉ ext := by
  rcases hs : splitAtDotRev name.reverse with _ | ⟨extRev, restRev⟩
  · rw [splitExt, hs] at h
    exact absurd rfl h
  · by_cases hm : (extRev.isEmpty || restRev.isEmpty) = true
    · rw [splitExt, hs] at h
      dsimp only at h
      rw [if_pos hm] at h
      exact absurd rfl h
    · have hsplit : splitExt name = (restRev.reverse, '.' :: extRev.reverse) := by
        rw [splitExt, hs]
        dsimp only
        rw [if_neg hm]
      obtain ⟨hrev, hdotrev⟩ := splitAtDotRev_sound name.reverse extRev restRev hs
      have hname : name = restRev.reverse ++ '.' :: extRev.reverse := by
        have := congrArg List.reverse hrev
        simpa using this
      rw [Bool.or_eq_true, not_or] at hm
      obtain ⟨hm1, hm2⟩ := hm
      have hext_ne : extRev.reverse ≠ [] := by
        intro hh
        have : extRev = [] := by simpa using hh
        rw [this] at hm1
        exact hm1 rfl
      have hstem_ne : restRev.reverse ≠ [] := by
        intro hh
        have : restRev = [] := by simpa using hh
        rw [this] at hm2
        exact hm2 rfl
      exact ⟨restRev.reverse, extRev.reverse, hsplit, hname, hstem_ne, hext_ne,
        fun hh => hdotrev (List.mem_reverse.mp hh)⟩

/-- Stripping a freshly appended 12-hex-character hash segment recovers the
stem it was appended to. -/
theorem stripHash_append_hash (s h12 : Str) (hh : isHash12 h12 = true) :
    stripHash (s ++ '.' :: h12) = s := by
  rw [isHash12, Bool.and_eq_true] at hh
  obtain ⟨hlen', hall'⟩ := hh
  have hlen : h12.length = 12 := by simpa using hlen'
  have hall : ∀ c ∈ h12, isHexLower c = true := by
    intro c hc
    exact List.all_eq_true.mp hall' c hc
  have hrevlen : h12.reverse.length = 12 := by simp [hlen]
  have hrev : (s ++ '.' :: h12).reverse = h12.reverse ++ '.' :: s.reverse := by
    simp
  have hdrop : (h12.reverse ++ '.' :: s.reverse).drop 12 = '.' :: s.reverse := by
    rw [← hrevlen]
    exact List.drop_left _ _
  have htake : (h12.reverse ++ '.' :: s.reverse).take 12 = h12.reverse := by
    rw [← hrevlen]
    exact List.take_left _ _
  have hallrev : (h12.reverse).all isHexLower = true := by
    rw [List.all_eq_true]
    intro c hc
    exact hall c (List.mem_reverse.mp hc)
  have hdrop13 : (h12.reverse ++ '.' :: s.reverse).drop 13 = s.reverse := by
    have hdd : List.drop 1 (List.drop 12 (h12.reverse ++ '.' :: s.reverse)) =
        List.drop 13 (h12.reverse ++ '.' :: s.reverse) := by
      rw [List.drop_drop]
    rw [← hdd, hdrop, List.drop_one]
    rfl
  rw [stripHash, hrev, hdrop]
  rw [htake, hallrev, if_pos rfl, hdrop13, List.reverse_reverse]
  rfl

/-- The stripped stem's characters all come from the original stem. -/
theorem stripHash_subset (s : Str) : ∀ c ∈ stripHash s, c ∈ s := by
  intro c hc
  rw [stripHash] at hc
  split at hc
  · split at hc
    · have h1 : c ∈ s.reverse.drop 13 := List.mem_reverse.mp hc
      exact List.mem_reverse.mp (List.mem_of_mem_drop h1)
    · exact hc
  · exact hc

theorem isHexLower_ne_slash (c : Char) (h : isHexLower c = true) : c ≠ '/' := by
  intro hh
  rw [hh] at h
  exact absurd h (by decide)

/-! ## Claim C6: assembling the pieces -/

theorem parsePath_single (l : Str) (hne : l ≠ []) (hdot : l ≠ ['.'])
    (hslash : ∀ c ∈ l, c ≠ '/') : parsePath l = ⟨false, [l]⟩ := by
  rw [parsePath, isAbsL_of_no_slash l hslash, pathParts_single l hne hdot hslash]

theorem PPath.name_singleton (b : Bool) (x : Str) :
    PPath.name ⟨b, [x]⟩ = x := rfl

theorem PPath.name_concat (b : Bool) (l : List Str) (x : Str) :
    PPath.name ⟨b, l ++ [x]⟩ = x := by
  rw [PPath.name]
  simp

theorem PPath.parent_concat (b : Bool) (l : List Str) (x : Str) :
    PPath.parent ⟨b, l ++ [x]⟩ = ⟨b, l⟩ := by
  rw [PPath.parent]
  simp

/-- Under the parse invariant, only the empty relative path renders as `"."`. -/
theorem render_eq_dot (q : PPath)
    (h : ∀ part ∈ q.parts, part ≠ [] ∧ part ≠ ['.'] ∧ ∀ c ∈ part, c ≠ '/')
    (hr : q.render = ['.']) : q = ⟨false, []⟩ := by
  obtain ⟨abs, parts⟩ := q
  simp only at h
  rcases abs with _ | _
  · rcases parts with _ | ⟨p0, rest⟩
    · rfl
    · exfalso
      obtain ⟨X, hX⟩ := flatten_intersperse_head p0 rest
      simp only [PPath.render] at hr
      rw [hX] at hr
      obtain ⟨hp0ne, hp0dot, _⟩ := h p0 (List.mem_cons_self _ _)
      rcases p0 with _ | ⟨c, u⟩
      · exact hp0ne rfl
      · rw [List.cons_append] at hr
        injection hr with h1 h2
        subst h1
        rcases List.append_eq_nil.mp h2 with ⟨rfl, _⟩
        exact hp0dot rfl
  · simp only [PPath.render] at hr
    cases hr

/-- C6 amended: for every path whose final component has a nonempty extension
(`pathlib` suffix) and all 12-character lowercase hexadecimal hashes `h1`,
`h2`, re-hashing a hashed filename replaces the previous hash rather than
accumulating: `create_hashed_filename (create_hashed_filename p h1) h2 =
create_hashed_filename p h2`.  (For an extensionless name the first hash
itself becomes the extension and the equation fails — see the
counterexample.) -/
theorem create_hashed_filename_stable (p h1 h2 : Str)
    (hh1 : isHash12 h1 = true) (hh2 : isHash12 h2 = true)
    (hsuf : (splitExt (parsePath p).name).2 ≠ []) :
    create_hashed_filename (create_hashed_filename p h1) h2 =
      create_hashed_filename p h2 := by
  obtain ⟨stem, ext, hse, hname, hstemne, hextne, hdotext⟩ :=
    splitExt_spec _ hsuf
  have hh1' := hh1
  rw [isHash12, Bool.and_eq_true] at hh1'
  have hh1len : h1.length = 12 := by simpa using hh1'.1
  have hh1all : ∀ c ∈ h1, isHexLower c = true :=
    fun c hc => List.all_eq_true.mp hh1'.2 c hc
  have hinv : ∀ part ∈ (parsePath p).parts,
      part ≠ [] ∧ part ≠ ['.'] ∧ ∀ c ∈ part, c ≠ '/' := pathParts_invariant p
  have hparts_ne : (parsePath p).parts ≠ [] := by
    intro hh
    have hn : (parsePath p).name = [] := by
      rw [PPath.name, hh]
      rfl
    rw [hn] at hname
    exact (List.cons_ne_nil '.' ext) (List.append_eq_nil.mp hname.symm).2
  have hlast := List.getLast?_eq_getLast (parsePath p).parts hparts_ne
  have hname_mem : (parsePath p).name ∈ (parsePath p).parts := by
    rw [PPath.name, hlast]
    exact List.getLast_mem hparts_ne
  have hdecomp : (parsePath p).parts.dropLast ++ [(parsePath p).name] =
      (parsePath p).parts := by
    rw [PPath.name, hlast]
    exact List.dropLast_append_getLast hparts_ne
  obtain ⟨hname_ne, hname_dot, hname_slash⟩ := hinv _ hname_mem
  have hstem_slash : ∀ c ∈ stem, c ≠ '/' :=
    fun c hc => hname_slash c (hname ▸ List.mem_append_left _ hc)
  have hext_slash : ∀ c ∈ ext, c ≠ '/' :=
    fun c hc => hname_slash c
      (hname ▸ List.mem_append_right _ (List.mem_cons_of_mem _ hc))
  have hs2_slash : ∀ c ∈ stripHash stem, c ≠ '/' :=
    fun c hc => hstem_slash c (stripHash_subset stem c hc)
  have hnf_slash : ∀ hs, (∀ c ∈ hs, isHexLower c = true) →
      ∀ c ∈ stripHash stem ++ '.' :: hs ++ '.' :: ext, c ≠ '/' := by
    intro hs hsall c hc
    rcases List.mem_append.mp hc with hc | hc
    · rcases List.mem_append.mp hc with hc | hc
      · exact hs2_slash c hc
      · rcases List.mem_cons.mp hc with rfl | hc
        · decide
        · exact isHexLower_ne_slash c (hsall c hc)
    · rcases List.mem_cons.mp hc with rfl | hc
      · decide
      · exact hext_slash c hc
  have hnf1_slash := hnf_slash h1 hh1all
  have hnf1_ne : stripHash stem ++ '.' :: h1 ++ '.' :: ext ≠ [] := by simp
  have hsplit_nf1 : splitExt (stripHash stem ++ '.' :: h1 ++ '.' :: ext) =
      (stripHash stem ++ '.' :: h1, '.' :: ext) :=
    splitExt_build _ _ (by simp) hextne hdotext
  have hnf1_dot : stripHash stem ++ '.' :: h1 ++ '.' :: ext ≠ ['.'] := by
    intro hh
    have h2' := hsplit_nf1
    rw [hh] at h2'
    have h3 := congrArg Prod.snd h2'
    simp [splitExt, splitAtDotRev] at h3
  have hstrip1 : stripHash (stripHash stem ++ '.' :: h1) = stripHash stem :=
    stripHash_append_hash _ h1 hh1
  have hbody : ∀ hsh, create_hashed_filename p hsh =
      if (parsePath p).parent.render = ['.']
      then stripHash stem ++ '.' :: hsh ++ '.' :: ext
      else ((parsePath p).parent.child
        (stripHash stem ++ '.' :: hsh ++ '.' :: ext)).render := by
    intro hsh
    simp only [create_hashed_filename, hse]
  by_cases hb : (parsePath p).parent.render = ['.']
  · rw [hbody h1, hbody h2, if_pos hb, if_pos hb]
    have hparse1 := parsePath_single _ hnf1_ne hnf1_dot hnf1_slash
    rw [create_hashed_filename, hparse1, PPath.name_singleton, hsplit_nf1]
    simp only [hstrip1]
    have hpar : PPath.parent ⟨false, [stripHash stem ++ '.' :: h1 ++ '.' :: ext]⟩
        = ⟨false, []⟩ := rfl
    rw [hpar, if_pos (show (⟨false, []⟩ : PPath).render = ['.'] from rfl)]
  · rw [hbody h1, hbody h2, if_neg hb, if_neg hb]
    have habs1 : isAbsL (stripHash stem ++ '.' :: h1 ++ '.' :: ext) = false :=
      isAbsL_of_no_slash _ hnf1_slash
    have hchild1 : (parsePath p).parent.child
        (stripHash stem ++ '.' :: h1 ++ '.' :: ext) =
        ⟨(parsePath p).abs, (parsePath p).parts.dropLast ++
          [stripHash stem ++ '.' :: h1 ++ '.' :: ext]⟩ := by
      rw [PPath.child, habs1]
      simp only [Bool.false_eq_true, if_false]
      rw [pathParts_single _ hnf1_ne hnf1_dot hnf1_slash]
      rfl
    rw [hchild1]
    have hqinv : ∀ part ∈ (parsePath p).parts.dropLast ++
        [stripHash stem ++ '.' :: h1 ++ '.' :: ext],
        part ≠ [] ∧ part ≠ ['.'] ∧ ∀ c ∈ part, c ≠ '/' := by
      intro part hp
      rcases List.mem_append.mp hp with hp | hp
      · exact hinv part ((List.dropLast_sublist _).subset hp)
      · rcases List.mem_cons.mp hp with rfl | hp
        · exact ⟨hnf1_ne, hnf1_dot, hnf1_slash⟩
        · cases hp
    have hparse2 := parsePath_render
      ⟨(parsePath p).abs, (parsePath p).parts.dropLast ++
        [stripHash stem ++ '.' :: h1 ++ '.' :: ext]⟩ hqinv
    rw [create_hashed_filename]
    rw [hparse2]
    rw [PPath.name_concat]
    rw [hsplit_nf1]
    rw [PPath.parent_concat]
    have hparent : (⟨(parsePath p).abs, (parsePath p).parts.dropLast⟩ : PPath)
        = (parsePath p).parent := rfl
    rw [hparent]
    rw [if_neg hb]
    rw [hstrip1]

/-- C6 fails as stated on extensionless paths: the first hash becomes the
extension, the hash-stripping pattern never sees it (it only inspects the
stem), and hashes accumulate. -/
theorem create_hashed_filename_not_stable_no_ext :
    create_hashed_filename
        (create_hashed_filename "file".data "aaaaaaaaaaaa".data)
        "bbbbbbbbbbbb".data ≠
      create_hashed_filename "file".data "bbbbbbbbbbbb".data := by
  decide

/-- Witness for the amended C6 at a concrete hashed stylesheet path. -/
theorem create_hashed_filename_stable_witness :
    isHash12 "0123456789ab".data = true ∧
      isHash12 "ba9876543210".data = true ∧
      (splitExt (parsePath "css/app.css".data).name).2 ≠ [] ∧
      create_hashed_filename
          (create_hashed_filename "css/app.css".data "0123456789ab".data)
          "ba9876543210".data =
        create_hashed_filename "css/app.css".data "ba9876543210".data :=
  ⟨by decide, by decide, by decide,
    create_hashed_filename_stable "css/app.css".data "0123456789ab".data
      "ba9876543210".data (by decide) (by decide) (by decide)⟩

end Minicompress
